import Mathlib

/-!
Verification of the hash-tree / proof-of-work toolchain
(graders and reference solvers for exercises 1–3).

The Python sources are embedded shallowly:

* a tree node / transaction id is its decoded byte buffer, `Node := List Nat`
  (each entry a byte value); the hex display layer is modelled separately for
  the header codec, where the sources manipulate hex strings directly;
* `hashlib.sha256` is an uninterpreted parameter `sha256 : Node → Node`
  (the sources use it as a black-box digest primitive; every theorem below is
  parametric in it, and concrete witnesses instantiate it with an explicit
  function);
* `sys.exit(1)` / `SystemExit` failure paths become `Except` errors carrying
  the same data the Python error messages carry.
-/

/-- A tree node: the decoded bytes of a 32-byte identifier. -/
abbrev Node : Type := List Nat

/-- Python `nodes[-1]` on a (nonempty) list. -/
def lastD (l : List Node) : Node :=
  l.getD (l.length - 1) []

/-- The pairing pass of `build_next_level` / `merkle_root_be_hex`:
`for i in range(0, len(nodes), 2): nxt.append(sha256(nodes[i] + nodes[i+1]))`.
The input always has even length (padding has been applied). -/
def pairUp (sha256 : Node → Node) : List Node → List Node
  | a :: b :: rest => sha256 (a ++ b) :: pairUp sha256 rest
  | _ => []

/-- `build_next_level` (grader_exercise02) / `build_parent_level`
(solve_exercise02): duplicate the last node when the level is odd, then hash
consecutive pairs. -/
def buildNextLevel (sha256 : Node → Node) (level : List Node) : List Node :=
  pairUp sha256 (if level.length % 2 = 1 then level ++ [lastD level] else level)

theorem pairUp_length (sha256 : Node → Node) :
    ∀ l : List Node, (pairUp sha256 l).length = l.length / 2
  | [] => by simp [pairUp]
  | [_] => by simp [pairUp]
  | _ :: _ :: rest => by
      simp [pairUp, pairUp_length sha256 rest]
      omega

theorem buildNextLevel_length (sha256 : Node → Node) (level : List Node) :
    (buildNextLevel sha256 level).length = (level.length + level.length % 2) / 2 := by
  unfold buildNextLevel
  split <;> simp [pairUp_length] <;> omega

/-- The `while len(level) > 1` loop of `merkle_root_be_hex`, returning
`level[0]` when one node remains. -/
def merkleRootAux (sha256 : Node → Node) (level : List Node) : Node :=
  if 1 < level.length then merkleRootAux sha256 (buildNextLevel sha256 level)
  else level.headD []
  termination_by level.length
  decreasing_by simp [buildNextLevel_length]; omega

/-- Errors of the graders/solvers; each `sys.exit(1)` site gets a constructor
carrying the data printed in its message. -/
inductive VerifyError : Type
  | emptyInput : VerifyError
  | targetNotFound (txid : Node) : VerifyError
  | proofMismatch (level : Nat) (expected submitted : Node) : VerifyError
  | internalConsistency : VerifyError
  | proofTooLong (pos : Nat) : VerifyError
  | proofTooShort : VerifyError
  | rootMismatchFull (fromProof fromFull : Node) : VerifyError
  | rootMismatchClaimed (expected got : Node) : VerifyError
deriving DecidableEq, Repr

/-- `merkle_root_be_hex` (all three sources share this function): reject an
empty list, then run the level loop.  The model works on decoded bytes; the
hex decode of the leaves and re-encode of the root are the bijective display
layer. -/
def merkle_root_be (sha256 : Node → Node) (txids : List Node) : Except VerifyError Node :=
  if txids = [] then .error .emptyInput
  else .ok (merkleRootAux sha256 txids)

/-- The sibling lookup shared by grader_exercise02's replay loop and
solve_exercise02's `build_inclusion_proof`: duplicated self when the level is
odd and the current node is last, otherwise index `current_index ^ 1` with the
defensive `sib_index >= size` clamp. -/
def sibAt (level : List Node) (currentIndex : Nat) : Node :=
  let size := level.length
  if size % 2 = 1 ∧ currentIndex = size - 1 then level.getD currentIndex []
  else
    let sibIndex := currentIndex ^^^ 1
    let sibIndex := if size ≤ sibIndex then size - 1 else sibIndex
    level.getD sibIndex []

/-- The parent computation shared by the same two loops: hash of
`current + sib` when duplicated-last or when `current_index` is even (current
is the LEFT operand), `sib + current` when odd (current is the RIGHT operand). -/
def parentAt (sha256 : Node → Node) (level : List Node) (currentIndex : Nat)
    (current : Node) : Node :=
  if level.length % 2 = 1 ∧ currentIndex = level.length - 1 then
    sha256 (current ++ sibAt level currentIndex)
  else if currentIndex % 2 = 0 then sha256 (current ++ sibAt level currentIndex)
  else sha256 (sibAt level currentIndex ++ current)

/-- The sibling list recorded along the path from `currentIndex` up to the
root — the proof the generator emits, and the values the Mode A replay checks
submissions against level by level. -/
def trueSibs (sha256 : Node → Node) (level : List Node) (currentIndex : Nat) : List Node :=
  if 1 < level.length then
    sibAt level currentIndex ::
      trueSibs sha256 (buildNextLevel sha256 level) (currentIndex / 2)
  else []
  termination_by level.length
  decreasing_by simp [buildNextLevel_length]; omega

/-- Python `list.index` (first position of a value; the caller guards
membership, mirroring the `try/except ValueError`). -/
def indexOfNode (required : Node) : List Node → Nat
  | [] => 0
  | t :: rest => if t = required then 0 else indexOfNode required rest + 1

/-- The ascent loop of solve_exercise02's `build_inclusion_proof`: record the
sibling, compute the parent, rebuild the whole next level, check the computed
parent against it, and continue until a single node remains.  Returns the root
and the accumulated sibling list. -/
def buildProofAux (sha256 : Node → Node) (level : List Node) (currentIndex : Nat)
    (current : Node) (acc : List Node) : Except VerifyError (Node × List Node) :=
  if 1 < level.length then
    let sib := sibAt level currentIndex
    let parent := parentAt sha256 level currentIndex current
    let parentLevel := buildNextLevel sha256 level
    if parent ≠ parentLevel.getD (currentIndex / 2) [] then .error .internalConsistency
    else buildProofAux sha256 parentLevel (currentIndex / 2) parent (acc ++ [sib])
  else .ok (current, acc)
  termination_by level.length
  decreasing_by simp [buildNextLevel_length]; omega

/-- `build_inclusion_proof` (solve_exercise02): locate the required txid, then
ascend from its leaf. -/
def build_inclusion_proof (sha256 : Node → Node) (txs : List Node) (required : Node) :
    Except VerifyError (Node × List Node) :=
  if required ∈ txs then
    buildProofAux sha256 txs (indexOfNode required txs)
      (txs.getD (indexOfNode required txs) []) []
  else .error (.targetNotFound required)

/-- The proof-replay loop of grader_exercise02's `main`
(`for step, proof_hash_be in enumerate(proof_be)` plus the
`if len(level) != 1` check after it): each submitted sibling is compared with
the true sibling, the parent is checked against the independently rebuilt next
level, the loop stops early with "too long" when the root is reached before
the submission is exhausted, and a submission exhausted below the root is "too
short".  Returns the replayed root and `depth_checked`. -/
def replayAux (sha256 : Node → Node) : List Node → Nat → Node → List Node → Nat → Nat →
    Except VerifyError (Node × Nat)
  | level, _, current, [], _, depth =>
    if level.length ≠ 1 then .error .proofTooShort else .ok (current, depth)
  | level, currentIndex, current, p :: rest, step, depth =>
    let sib := sibAt level currentIndex
    if p ≠ sib then .error (.proofMismatch step sib p)
    else
      let parent := parentAt sha256 level currentIndex current
      let parentLevel := buildNextLevel sha256 level
      if parent ≠ parentLevel.getD (currentIndex / 2) [] then .error .internalConsistency
      else if parentLevel.length = 1 then
        if rest ≠ [] then .error (.proofTooLong (step + 2)) else .ok (parent, depth + 1)
      else replayAux sha256 parentLevel (currentIndex / 2) parent rest (step + 1) (depth + 1)

/-- Mode A verification, the body of grader_exercise02's `main` after input
parsing: locate the required txid, replay the submitted proof against the
authoritative leaf sequence, then require the replayed root to equal the full
recomputation and the submitted root. -/
def verifyModeA (sha256 : Node → Node) (txs : List Node) (required studentRoot : Node)
    (proof : List Node) : Except VerifyError (Node × Nat) :=
  if required ∈ txs then
    match replayAux sha256 txs (indexOfNode required txs)
        (txs.getD (indexOfNode required txs) []) proof 0 0 with
    | .error e => .error e
    | .ok (computedRoot, depth) =>
      if merkleRootAux sha256 txs ≠ computedRoot then
        .error (.rootMismatchFull computedRoot (merkleRootAux sha256 txs))
      else if studentRoot ≠ computedRoot then
        .error (.rootMismatchClaimed computedRoot studentRoot)
      else .ok (computedRoot, depth)
  else .error (.targetNotFound required)

/-- Toggling the last bit of an even number adds one (Python `i ^ 1`). -/
theorem xor_one_of_even {c : Nat} (h : c % 2 = 0) : c ^^^ 1 = c + 1 := by
  apply Nat.eq_of_testBit_eq
  intro i
  cases i with
  | zero =>
    simp [Nat.testBit_xor, Nat.testBit_zero]
  | succ j =>
    have h2 : (c + 1) / 2 = c / 2 := by omega
    have e1 : (1 : Nat).testBit (j + 1) = false := by simp [Nat.testBit_succ]
    rw [Nat.testBit_xor, e1, Bool.xor_false, Nat.testBit_succ, Nat.testBit_succ, h2]

/-- Toggling the last bit of an odd number subtracts one (Python `i ^ 1`). -/
theorem xor_one_of_odd {c : Nat} (h : c % 2 = 1) : c ^^^ 1 = c - 1 := by
  apply Nat.eq_of_testBit_eq
  intro i
  cases i with
  | zero =>
    simp [Nat.testBit_xor, Nat.testBit_zero]
    omega
  | succ j =>
    have h2 : (c - 1) / 2 = c / 2 := by omega
    have e1 : (1 : Nat).testBit (j + 1) = false := by simp [Nat.testBit_succ]
    rw [Nat.testBit_xor, e1, Bool.xor_false, Nat.testBit_succ, Nat.testBit_succ, h2]

theorem pairUp_getD (sha256 : Node → Node) :
    ∀ (l : List Node) (i : Nat), 2 * i + 1 < l.length →
      (pairUp sha256 l).getD i [] = sha256 (l.getD (2 * i) [] ++ l.getD (2 * i + 1) [])
  | [], i, h => by simp only [List.length_nil] at h; omega
  | [_], i, h => by simp only [List.length_cons, List.length_nil] at h; omega
  | a :: b :: rest, 0, _ => by simp [pairUp]
  | a :: b :: rest, i + 1, h => by
    have hr : 2 * i + 1 < rest.length := by
      simp only [List.length_cons] at h; omega
    have e2 : 2 * (i + 1) = 2 * i + 1 + 1 := by omega
    rw [e2]
    simp only [pairUp, List.getD_cons_succ]
    exact pairUp_getD sha256 rest i hr

/-- The padded level agrees with the level at every in-range index. -/
theorem padded_getD (level : List Node) (j : Nat) (h : j < level.length) :
    (if level.length % 2 = 1 then level ++ [lastD level] else level).getD j [] =
      level.getD j [] := by
  split
  · exact List.getD_append level [lastD level] [] j h
  · rfl

/-- Central consistency fact: the parent computed by the per-node rule is
exactly the entry of the independently rebuilt next level at the halved index
(so the `Internal consistency error` guards in both loops never fire on the
true path), and the halved index is in range. -/
theorem parentAt_getD (sha256 : Node → Node) (level : List Node) (c : Nat)
    (hc : c < level.length) :
    parentAt sha256 level c (level.getD c []) =
      (buildNextLevel sha256 level).getD (c / 2) [] ∧
      c / 2 < (buildNextLevel sha256 level).length := by
  have hlen := buildNextLevel_length sha256 level
  refine ⟨?_, by omega⟩
  by_cases hdup : level.length % 2 = 1 ∧ c = level.length - 1
  · -- duplicated-last case: the level is odd and `c` is its last (even) index
    obtain ⟨hodd, hlast⟩ := hdup
    have hceven : c % 2 = 0 := by omega
    have hc2 : 2 * (c / 2) = c := by omega
    rw [parentAt, if_pos ⟨hodd, hlast⟩, sibAt]
    simp only [if_pos (And.intro hodd hlast)]
    rw [buildNextLevel, if_pos hodd,
      pairUp_getD sha256 _ (c / 2) (by simp [List.length_append]; omega), hc2]
    rw [List.getD_append level [lastD level] [] c hc,
      List.getD_append_right level [lastD level] [] (c + 1) (by omega)]
    have : c + 1 - level.length = 0 := by omega
    rw [this]
    simp [lastD, hlast]
  · rw [parentAt, if_neg hdup, sibAt]
    simp only [if_neg hdup]
    by_cases hce : c % 2 = 0
    · -- current is the LEFT operand, sibling is at `c + 1`
      have hc1 : c + 1 < level.length := by omega
      have hc2 : 2 * (c / 2) = c := by omega
      rw [xor_one_of_even hce, if_pos hce]
      simp only [if_neg (by omega : ¬ level.length ≤ c + 1)]
      rw [buildNextLevel]
      by_cases hodd : level.length % 2 = 1
      · rw [if_pos hodd,
          pairUp_getD sha256 _ (c / 2) (by simp [List.length_append]; omega), hc2]
        rw [List.getD_append level [lastD level] [] c hc,
          List.getD_append level [lastD level] [] (c + 1) hc1]
      · rw [if_neg hodd, pairUp_getD sha256 _ (c / 2) (by omega), hc2]
    · -- current is the RIGHT operand, sibling is at `c - 1`
      have hco : c % 2 = 1 := by omega
      have hc2 : 2 * (c / 2) = c - 1 := by omega
      have hc3 : c - 1 + 1 = c := by omega
      rw [xor_one_of_odd hco, if_neg hce]
      simp only [if_neg (by omega : ¬ level.length ≤ c - 1)]
      rw [buildNextLevel]
      by_cases hodd : level.length % 2 = 1
      · rw [if_pos hodd,
          pairUp_getD sha256 _ (c / 2) (by simp [List.length_append]; omega), hc2, hc3]
        rw [List.getD_append level [lastD level] [] (c - 1) (by omega),
          List.getD_append level [lastD level] [] c hc]
      · rw [if_neg hodd, pairUp_getD sha256 _ (c / 2) (by omega), hc2, hc3]

theorem merkleRootAux_step (sha256 : Node → Node) (level : List Node)
    (h : 1 < level.length) :
    merkleRootAux sha256 level = merkleRootAux sha256 (buildNextLevel sha256 level) := by
  rw [merkleRootAux, if_pos h]

theorem merkleRootAux_base (sha256 : Node → Node) (level : List Node)
    (h : ¬ 1 < level.length) :
    merkleRootAux sha256 level = level.headD [] := by
  rw [merkleRootAux, if_neg h]

theorem trueSibs_step (sha256 : Node → Node) (level : List Node) (c : Nat)
    (h : 1 < level.length) :
    trueSibs sha256 level c =
      sibAt level c :: trueSibs sha256 (buildNextLevel sha256 level) (c / 2) := by
  rw [trueSibs, if_pos h]

theorem trueSibs_base (sha256 : Node → Node) (level : List Node) (c : Nat)
    (h : ¬ 1 < level.length) : trueSibs sha256 level c = [] := by
  rw [trueSibs, if_neg h]

theorem headD_eq_getD (l : List Node) : l.headD [] = l.getD 0 [] := by
  cases l <;> rfl

theorem indexOfNode_lt_length {required : Node} :
    ∀ {txs : List Node}, required ∈ txs → indexOfNode required txs < txs.length := by
  intro txs h
  induction txs with
  | nil => simp at h
  | cons t rest ih =>
    by_cases ht : t = required
    · simp [indexOfNode, ht]
    · have hr : required ∈ rest := by
        rcases List.mem_cons.mp h with h1 | h1
        · exact absurd h1.symm ht
        · exact h1
      simp only [indexOfNode, if_neg ht, List.length_cons]
      exact Nat.succ_lt_succ (ih hr)

theorem getD_indexOfNode {required : Node} :
    ∀ {txs : List Node}, required ∈ txs → txs.getD (indexOfNode required txs) [] = required := by
  intro txs h
  induction txs with
  | nil => simp at h
  | cons t rest ih =>
    by_cases ht : t = required
    · simp [indexOfNode, ht]
    · have hr : required ∈ rest := by
        rcases List.mem_cons.mp h with h1 | h1
        · exact absurd h1.symm ht
        · exact h1
      simp only [indexOfNode, if_neg ht, List.getD_cons_succ]
      exact ih hr

/-- On the true path the generator never raises the internal-consistency
failure: it returns the root of the level loop and the recorded sibling list. -/
theorem buildProofAux_ok (sha256 : Node → Node) (level : List Node) (c : Nat)
    (acc : List Node) (hc : c < level.length) :
    buildProofAux sha256 level c (level.getD c []) acc =
      .ok (merkleRootAux sha256 level, acc ++ trueSibs sha256 level c) := by
  by_cases h : 1 < level.length
  · obtain ⟨hpar, hlt⟩ := parentAt_getD sha256 level c hc
    rw [buildProofAux, if_pos h]
    simp only [hpar, ne_eq, not_true_eq_false, if_false, ite_false]
    rw [buildProofAux_ok sha256 (buildNextLevel sha256 level) (c / 2)
      (acc ++ [sibAt level c]) hlt]
    rw [merkleRootAux_step sha256 level h, trueSibs_step sha256 level c h]
    simp
  · rw [buildProofAux, if_neg h, merkleRootAux_base sha256 level h,
      trueSibs_base sha256 level c h, headD_eq_getD]
    have hc0 : c = 0 := by omega
    subst hc0
    simp
  termination_by level.length
  decreasing_by simp [buildNextLevel_length]; omega

/-- Replaying the generator's own sibling list succeeds and reproduces the
level-loop root, checking exactly one level per proof entry. -/
theorem replayAux_true (sha256 : Node → Node) (level : List Node) (c step depth : Nat)
    (hc : c < level.length) :
    replayAux sha256 level c (level.getD c []) (trueSibs sha256 level c) step depth =
      .ok (merkleRootAux sha256 level, depth + (trueSibs sha256 level c).length) := by
  by_cases h : 1 < level.length
  · obtain ⟨hpar, hlt⟩ := parentAt_getD sha256 level c hc
    rw [trueSibs_step sha256 level c h, replayAux]
    simp only [ne_eq, not_true_eq_false, if_false, ite_false, reduceIte]
    rw [if_neg (not_not_intro hpar)]
    by_cases h1 : (buildNextLevel sha256 level).length = 1
    · have hrest : trueSibs sha256 (buildNextLevel sha256 level) (c / 2) = [] :=
        trueSibs_base sha256 _ _ (by omega)
      rw [if_pos h1, hrest, if_neg (by simp)]
      rw [hpar, merkleRootAux_step sha256 level h,
        merkleRootAux_base sha256 _ (by omega), headD_eq_getD]
      have hc0 : c / 2 = 0 := by omega
      rw [hc0]
      simp
    · rw [if_neg h1, hpar]
      rw [replayAux_true sha256 (buildNextLevel sha256 level) (c / 2) (step + 1)
        (depth + 1) hlt]
      rw [merkleRootAux_step sha256 level h]
      simp only [List.length_cons]
      have e : depth + 1 + (trueSibs sha256 (buildNextLevel sha256 level) (c / 2)).length =
          depth + ((trueSibs sha256 (buildNextLevel sha256 level) (c / 2)).length + 1) := by
        omega
      rw [e]
  · rw [trueSibs_base sha256 level c h, replayAux]
    rw [if_neg (by omega : ¬ level.length ≠ 1)]
    rw [merkleRootAux_base sha256 level h, headD_eq_getD]
    have hc0 : c = 0 := by omega
    subst hc0
    simp
  termination_by level.length
  decreasing_by simp [buildNextLevel_length]; omega

/-- When the submission matches the true siblings strictly below position `k`
and differs at `k`, the replay stops at `k` with a mismatch error naming the
level, the expected sibling, and the submitted one. -/
theorem replayAux_mismatch (sha256 : Node → Node) :
    ∀ (k : Nat) (level : List Node) (c : Nat) (proof : List Node) (step depth : Nat),
      c < level.length →
      k < (trueSibs sha256 level c).length →
      k < proof.length →
      (∀ j, j < k → proof.getD j [] = (trueSibs sha256 level c).getD j []) →
      proof.getD k [] ≠ (trueSibs sha256 level c).getD k [] →
      replayAux sha256 level c (level.getD c []) proof step depth =
        .error (.proofMismatch (step + k) ((trueSibs sha256 level c).getD k [])
          (proof.getD k [])) := by
  intro k
  induction k with
  | zero =>
    intro level c proof step depth hc hts hp _ hdiff
    have h : 1 < level.length := by
      by_contra hle
      rw [trueSibs_base sha256 level c hle] at hts
      simp at hts
    cases proof with
    | nil => simp at hp
    | cons p rest =>
      rw [trueSibs_step sha256 level c h] at hdiff ⊢
      simp only [List.getD_cons_zero] at hdiff ⊢
      rw [replayAux, if_pos hdiff]
      simp
  | succ k ih =>
    intro level c proof step depth hc hts hp hpre hdiff
    have h : 1 < level.length := by
      by_contra hle
      rw [trueSibs_base sha256 level c hle] at hts
      simp at hts
    cases proof with
    | nil => simp at hp
    | cons p rest =>
      obtain ⟨hpar, hlt⟩ := parentAt_getD sha256 level c hc
      have hp0 : p = sibAt level c := by
        have := hpre 0 (Nat.zero_lt_succ k)
        rw [trueSibs_step sha256 level c h] at this
        simpa using this
      rw [trueSibs_step sha256 level c h] at hts hpre hdiff ⊢
      rw [replayAux, if_neg (not_not_intro hp0)]
      simp only [ne_eq, not_true_eq_false, if_false, ite_false, reduceIte]
      rw [if_neg (not_not_intro hpar)]
      have h1 : ¬ (buildNextLevel sha256 level).length = 1 := by
        intro h1
        have : trueSibs sha256 (buildNextLevel sha256 level) (c / 2) = [] :=
          trueSibs_base sha256 _ _ (by omega)
        rw [this] at hts
        simp at hts
      rw [if_neg h1, hpar]
      have hrec := ih (buildNextLevel sha256 level) (c / 2) rest (step + 1) (depth + 1)
        hlt (by simpa using hts) (by simpa using hp)
        (fun j hj => by
          have := hpre (j + 1) (Nat.succ_lt_succ hj)
          simpa using this)
        (by simpa using hdiff)
      rw [hrec]
      simp only [List.getD_cons_succ]
      congr 2
      omega

/-- A submission that is a strict level-by-level-matching prefix of the true
sibling list is exhausted below the root: the replay fails as too short. -/
theorem replayAux_short (sha256 : Node → Node) :
    ∀ (proof : List Node) (level : List Node) (c step depth : Nat),
      c < level.length →
      proof.length < (trueSibs sha256 level c).length →
      (∀ j, j < proof.length → proof.getD j [] = (trueSibs sha256 level c).getD j []) →
      replayAux sha256 level c (level.getD c []) proof step depth =
        .error .proofTooShort := by
  intro proof
  induction proof with
  | nil =>
    intro level c step depth hc hlen _
    have h : 1 < level.length := by
      by_contra hle
      rw [trueSibs_base sha256 level c hle] at hlen
      simp at hlen
    rw [replayAux, if_pos (by omega : level.length ≠ 1)]
  | cons p rest ih =>
    intro level c step depth hc hlen hpre
    have h : 1 < level.length := by
      by_contra hle
      rw [trueSibs_base sha256 level c hle] at hlen
      simp at hlen
    obtain ⟨hpar, hlt⟩ := parentAt_getD sha256 level c hc
    have hp0 : p = sibAt level c := by
      have := hpre 0 (by simp)
      rw [trueSibs_step sha256 level c h] at this
      simpa using this
    rw [trueSibs_step sha256 level c h] at hlen hpre
    rw [replayAux, if_neg (not_not_intro hp0)]
    simp only [ne_eq, not_true_eq_false, if_false, ite_false, reduceIte]
    rw [if_neg (not_not_intro hpar)]
    have h1 : ¬ (buildNextLevel sha256 level).length = 1 := by
      intro h1
      have : trueSibs sha256 (buildNextLevel sha256 level) (c / 2) = [] :=
        trueSibs_base sha256 _ _ (by omega)
      rw [this] at hlen
      simp at hlen
    rw [if_neg h1, hpar]
    exact ih (buildNextLevel sha256 level) (c / 2) (step + 1) (depth + 1) hlt
      (by simpa using hlen)
      (fun j hj => by
        have := hpre (j + 1) (by simpa using Nat.succ_lt_succ hj)
        simpa using this)

/-- A submission that extends the true sibling list past the root fails as too
long, at file position `trueSibs.length + 1` (Python's `step + 2`). -/
theorem replayAux_long (sha256 : Node → Node) (level : List Node) (c : Nat)
    (proof : List Node) (step depth : Nat)
    (hc : c < level.length) (h : 1 < level.length)
    (hlen : (trueSibs sha256 level c).length < proof.length)
    (hpre : ∀ j, j < (trueSibs sha256 level c).length →
      proof.getD j [] = (trueSibs sha256 level c).getD j []) :
    replayAux sha256 level c (level.getD c []) proof step depth =
      .error (.proofTooLong (step + (trueSibs sha256 level c).length + 1)) := by
  obtain ⟨hpar, hlt⟩ := parentAt_getD sha256 level c hc
  cases proof with
  | nil =>
    rw [trueSibs_step sha256 level c h] at hlen
    simp at hlen
  | cons p rest =>
    have hp0 : p = sibAt level c := by
      have := hpre 0 (by rw [trueSibs_step sha256 level c h]; simp)
      rw [trueSibs_step sha256 level c h] at this
      simpa using this
    rw [trueSibs_step sha256 level c h] at hlen hpre ⊢
    rw [replayAux, if_neg (not_not_intro hp0)]
    simp only [ne_eq, not_true_eq_false, if_false, ite_false, reduceIte]
    rw [if_neg (not_not_intro hpar)]
    by_cases h1 : (buildNextLevel sha256 level).length = 1
    · have hrest : trueSibs sha256 (buildNextLevel sha256 level) (c / 2) = [] :=
        trueSibs_base sha256 _ _ (by omega)
      rw [if_pos h1]
      have hne : rest ≠ [] := by
        rw [hrest] at hlen
        simp at hlen
        intro hr
        rw [hr] at hlen
        simp at hlen
      rw [if_pos hne, hrest]
      simp
    · have h2 : 1 < (buildNextLevel sha256 level).length := by
        have := buildNextLevel_length sha256 level
        omega
      rw [if_neg h1, hpar]
      rw [replayAux_long sha256 (buildNextLevel sha256 level) (c / 2) rest (step + 1)
        (depth + 1) hlt h2 (by simpa using hlen)
        (fun j hj => by
          have := hpre (j + 1) (by simpa using Nat.succ_lt_succ hj)
          simpa using this)]
      simp only [List.length_cons]
      congr 2
      omega
  termination_by level.length
  decreasing_by simp [buildNextLevel_length]; omega

/-- Spec-side rendering of one level step, following the specification's words:
pad an odd level with a copy of its last node, then form the sequence whose
i-th node is a single hash of the concatenation of nodes `2i` and `2i+1`.
Stated for comparison with the source-translated `buildNextLevel`. -/
def specNextLevel (sha256 : Node → Node) (level : List Node) : List Node :=
  let padded := if level.length % 2 = 1 then level ++ [lastD level] else level
  (List.range (padded.length / 2)).map
    (fun i => sha256 (padded.getD (2 * i) [] ++ padded.getD (2 * i + 1) []))

theorem pairUp_eq_map (sha256 : Node → Node) :
    ∀ l : List Node, l.length % 2 = 0 →
      pairUp sha256 l = (List.range (l.length / 2)).map
        (fun i => sha256 (l.getD (2 * i) [] ++ l.getD (2 * i + 1) []))
  | [], _ => by simp [pairUp]
  | [_], h => by simp at h
  | a :: b :: rest, h => by
    have hr : rest.length % 2 = 0 := by
      simp only [List.length_cons] at h; omega
    have hlen : (a :: b :: rest).length / 2 = rest.length / 2 + 1 := by
      simp only [List.length_cons]; omega
    rw [show pairUp sha256 (a :: b :: rest) =
        sha256 (a ++ b) :: pairUp sha256 rest from rfl,
      pairUp_eq_map sha256 rest hr, hlen, List.range_succ_eq_map]
    simp only [List.map_cons, List.map_map, List.getD_cons_zero, List.getD_cons_succ,
      Nat.mul_zero, Nat.zero_add]
    congr 1

theorem buildNextLevel_eq_spec (sha256 : Node → Node) (level : List Node) :
    buildNextLevel sha256 level = specNextLevel sha256 level := by
  have hpe : (if level.length % 2 = 1 then level ++ [lastD level] else level).length % 2
      = 0 := by
    split
    · simp only [List.length_append, List.length_cons, List.length_nil]; omega
    · omega
  exact pairUp_eq_map sha256 _ hpe

theorem specNextLevel_length (sha256 : Node → Node) (level : List Node) :
    (specNextLevel sha256 level).length = (level.length + level.length % 2) / 2 := by
  rw [← buildNextLevel_eq_spec, buildNextLevel_length]

/-- Spec-side root: repeat the level step until one node remains. -/
def specMerkleRoot (sha256 : Node → Node) (level : List Node) : Node :=
  if 1 < level.length then specMerkleRoot sha256 (specNextLevel sha256 level)
  else level.headD []
  termination_by level.length
  decreasing_by simp [specNextLevel_length]; omega

theorem specMerkleRoot_step (sha256 : Node → Node) (level : List Node)
    (h : 1 < level.length) :
    specMerkleRoot sha256 level = specMerkleRoot sha256 (specNextLevel sha256 level) := by
  rw [specMerkleRoot, if_pos h]

theorem specMerkleRoot_base (sha256 : Node → Node) (level : List Node)
    (h : ¬ 1 < level.length) : specMerkleRoot sha256 level = level.headD [] := by
  rw [specMerkleRoot, if_neg h]

/-- The source's level loop computes exactly the spec's level loop. -/
theorem merkleRootAux_eq_spec (sha256 : Node → Node) (level : List Node) :
    merkleRootAux sha256 level = specMerkleRoot sha256 level := by
  by_cases h : 1 < level.length
  · rw [merkleRootAux_step sha256 level h,
      merkleRootAux_eq_spec sha256 (buildNextLevel sha256 level),
      buildNextLevel_eq_spec, ← specMerkleRoot_step sha256 level h]
  · rw [merkleRootAux_base sha256 level h, specMerkleRoot_base sha256 level h]
  termination_by level.length
  decreasing_by simp [buildNextLevel_length]; omega

/-- Concrete digest function for witnesses: a constant 32-byte output. -/
def shaC : Node → Node := fun _ => List.replicate 32 0

def zeros32 : Node := List.replicate 32 0

def nodeA : Node := List.replicate 32 1

def nodeB : Node := List.replicate 32 2

def nodeC : Node := List.replicate 32 3

theorem merkleRootAux_single (sha256 : Node → Node) (a : Node) :
    merkleRootAux sha256 [a] = a := by
  rw [merkleRootAux_base _ _ (by simp)]
  rfl

theorem buildNextLevel_pair (sha256 : Node → Node) (a b : Node) :
    buildNextLevel sha256 [a, b] = [sha256 (a ++ b)] := by
  rw [buildNextLevel, if_neg (by simp)]
  rfl

theorem sibAt_pair_left (a b : Node) : sibAt [a, b] 0 = b := by
  simp [sibAt]

theorem merkleRootAux_pair (sha256 : Node → Node) (a b : Node) :
    merkleRootAux sha256 [a, b] = sha256 (a ++ b) := by
  rw [merkleRootAux_step _ _ (by simp), buildNextLevel_pair,
    merkleRootAux_base _ _ (by simp)]
  rfl

theorem trueSibs_pair (sha256 : Node → Node) (a b : Node) :
    trueSibs sha256 [a, b] 0 = [b] := by
  rw [trueSibs_step _ _ _ (by simp), buildNextLevel_pair,
    trueSibs_base _ _ _ (by simp), sibAt_pair_left]

/-- C1: for every non-empty leaf sequence the builder's level loop produces
exactly the root described by the spec's pad-then-pair iteration, and for a
single-leaf sequence the loop never runs: the root is the leaf itself,
independently of the hash function (no hashing occurs). -/
theorem merkle_root_builder_level_loop (sha256 : Node → Node) (leaves : List Node)
    (hne : leaves ≠ []) :
    merkle_root_be sha256 leaves = .ok (specMerkleRoot sha256 leaves) ∧
    (∀ (h : Node → Node) (a : Node), merkle_root_be h [a] = .ok a) := by
  constructor
  · rw [merkle_root_be, if_neg hne, merkleRootAux_eq_spec]
  · intro h a
    rw [merkle_root_be, if_neg (by simp), merkleRootAux_single]

/-- Witness for C1 at a concrete two-leaf input. -/
theorem merkle_root_builder_level_loop_witness :
    merkle_root_be shaC [nodeA, nodeB] = .ok (specMerkleRoot shaC [nodeA, nodeB]) ∧
    merkle_root_be shaC [nodeA] = .ok nodeA := by
  obtain ⟨h1, h2⟩ := merkle_root_builder_level_loop shaC [nodeA, nodeB] (by simp)
  exact ⟨h1, h2 shaC nodeA⟩

/-- C2: for every leaf sequence containing the required leaf, the proof
generator succeeds with the full-rebuild root and the true sibling list, Mode
A verification of exactly that output is accepted, and the full rebuild
returns the same root. -/
theorem generated_proof_verifies_modeA (sha256 : Node → Node) (txs : List Node)
    (required : Node) (hmem : required ∈ txs) :
    build_inclusion_proof sha256 txs required =
      .ok (merkleRootAux sha256 txs, trueSibs sha256 txs (indexOfNode required txs)) ∧
    verifyModeA sha256 txs required (merkleRootAux sha256 txs)
        (trueSibs sha256 txs (indexOfNode required txs)) =
      .ok (merkleRootAux sha256 txs,
        (trueSibs sha256 txs (indexOfNode required txs)).length) ∧
    merkle_root_be sha256 txs = .ok (merkleRootAux sha256 txs) := by
  have hidx := indexOfNode_lt_length hmem
  refine ⟨?_, ?_, ?_⟩
  · rw [build_inclusion_proof, if_pos hmem,
      buildProofAux_ok sha256 txs (indexOfNode required txs) [] hidx]
    simp
  · rw [verifyModeA, if_pos hmem,
      replayAux_true sha256 txs (indexOfNode required txs) 0 0 hidx]
    simp
  · rw [merkle_root_be, if_neg (List.ne_nil_of_mem hmem)]

/-- Witness for C2 at a concrete two-leaf input. -/
theorem generated_proof_verifies_modeA_witness :
    build_inclusion_proof shaC [nodeA, nodeB] nodeA =
      .ok (merkleRootAux shaC [nodeA, nodeB],
        trueSibs shaC [nodeA, nodeB] (indexOfNode nodeA [nodeA, nodeB])) ∧
    verifyModeA shaC [nodeA, nodeB] nodeA (merkleRootAux shaC [nodeA, nodeB])
        (trueSibs shaC [nodeA, nodeB] (indexOfNode nodeA [nodeA, nodeB])) =
      .ok (merkleRootAux shaC [nodeA, nodeB],
        (trueSibs shaC [nodeA, nodeB] (indexOfNode nodeA [nodeA, nodeB])).length) ∧
    merkle_root_be shaC [nodeA, nodeB] = .ok (merkleRootAux shaC [nodeA, nodeB]) :=
  generated_proof_verifies_modeA shaC [nodeA, nodeB] nodeA (by simp)

/-- C3: if the submission matches the true siblings below level `k` and
differs from the true sibling at level `k`, Mode A fails with the mismatch
error naming level `k`, the expected sibling, and the submitted one. -/
theorem modeA_sibling_mismatch_fails (sha256 : Node → Node) (txs : List Node)
    (required studentRoot : Node) (proof : List Node) (k : Nat)
    (hmem : required ∈ txs)
    (hk : k < (trueSibs sha256 txs (indexOfNode required txs)).length)
    (hkp : k < proof.length)
    (hpre : ∀ j, j < k →
      proof.getD j [] = (trueSibs sha256 txs (indexOfNode required txs)).getD j [])
    (hdiff : proof.getD k [] ≠
      (trueSibs sha256 txs (indexOfNode required txs)).getD k []) :
    verifyModeA sha256 txs required studentRoot proof =
      .error (.proofMismatch k
        ((trueSibs sha256 txs (indexOfNode required txs)).getD k [])
        (proof.getD k [])) := by
  rw [verifyModeA, if_pos hmem,
    replayAux_mismatch sha256 k txs (indexOfNode required txs) proof 0 0
      (indexOfNode_lt_length hmem) hk hkp hpre hdiff]
  simp

/-- Witness for C3: a wrong first sibling on a two-leaf tree. -/
theorem modeA_sibling_mismatch_fails_witness :
    verifyModeA shaC [nodeA, nodeB] nodeA nodeA [nodeC] =
      .error (.proofMismatch 0 nodeB nodeC) := by
  have hidx : indexOfNode nodeA [nodeA, nodeB] = 0 := by decide
  have hts : trueSibs shaC [nodeA, nodeB] (indexOfNode nodeA [nodeA, nodeB]) = [nodeB] := by
    rw [hidx, trueSibs_pair]
  have h := modeA_sibling_mismatch_fails shaC [nodeA, nodeB] nodeA nodeA [nodeC] 0
    (by simp) (by rw [hts]; simp) (by simp) (by omega) (by rw [hts]; decide)
  rw [hts] at h
  simpa using h

/-- Recognizer for the two root-mismatch failure sites of Mode A. -/
def isRootMismatch : VerifyError → Bool
  | .rootMismatchFull _ _ => true
  | .rootMismatchClaimed _ _ => true
  | _ => false

/-- Recognizer for the proof-too-long failure. -/
def isTooLong : Except VerifyError (Node × Nat) → Bool
  | .error (.proofTooLong _) => true
  | _ => false

theorem sibAt_single (a : Node) : sibAt [a] 0 = a := by
  simp [sibAt]

theorem buildNextLevel_single (sha256 : Node → Node) (a : Node) :
    buildNextLevel sha256 [a] = [sha256 (a ++ a)] := by
  have hlast : lastD [a] = a := by simp [lastD]
  rw [buildNextLevel, if_pos (by simp), hlast]
  rfl

theorem parentAt_single (sha256 : Node → Node) (a : Node) :
    parentAt sha256 [a] 0 a = sha256 (a ++ a) := by
  rw [parentAt, if_pos (by simp), sibAt_single]

/-- On a single-leaf level, a submission whose first entry is the leaf and
which has at least two entries trips the too-long check at position 2. -/
theorem replayAux_single_long (sha256 : Node → Node) (a p2 : Node) (rest2 : List Node)
    (step depth : Nat) :
    replayAux sha256 [a] 0 a (a :: p2 :: rest2) step depth =
      .error (.proofTooLong (step + 2)) := by
  simp [replayAux, sibAt_single, parentAt_single, buildNextLevel_single]

/-- On a single-leaf level, the submission `[leaf]` replays to the hash of the
duplicated leaf — one level above the actual root. -/
theorem replayAux_single_one (sha256 : Node → Node) (a : Node) (step depth : Nat) :
    replayAux sha256 [a] 0 a [a] step depth = .ok (sha256 (a ++ a), depth + 1) := by
  simp [replayAux, sibAt_single, parentAt_single, buildNextLevel_single]

/-- C4 (amended): with the required leaf present, (i) a submission that
matches the true siblings but is exhausted before the replay reaches a
single-node level fails as too short; (ii) on a tree of height at least one, a
matching submission with entries left over once the root is reached fails as
too long at position `height + 1`; (iii) on a single-leaf tree a submission
whose first entry equals the leaf and which has a second entry fails as too
long, while (iv) the one-entry submission `[leaf]` instead replays past the
root and fails with the full-recompute root mismatch whenever hashing the
duplicated leaf does not return the leaf. -/
theorem modeA_proof_length_checks (sha256 : Node → Node) (txs : List Node)
    (required studentRoot : Node) (proof : List Node) (hmem : required ∈ txs) :
    (proof.length < (trueSibs sha256 txs (indexOfNode required txs)).length →
      (∀ j, j < proof.length →
        proof.getD j [] = (trueSibs sha256 txs (indexOfNode required txs)).getD j []) →
      verifyModeA sha256 txs required studentRoot proof = .error .proofTooShort) ∧
    (trueSibs sha256 txs (indexOfNode required txs) ≠ [] →
      (trueSibs sha256 txs (indexOfNode required txs)).length < proof.length →
      (∀ j, j < (trueSibs sha256 txs (indexOfNode required txs)).length →
        proof.getD j [] = (trueSibs sha256 txs (indexOfNode required txs)).getD j []) →
      verifyModeA sha256 txs required studentRoot proof =
        .error (.proofTooLong
          ((trueSibs sha256 txs (indexOfNode required txs)).length + 1))) ∧
    (∀ (a p2 : Node) (rest2 : List Node), txs = [a] → required = a →
      proof = a :: p2 :: rest2 →
      verifyModeA sha256 txs required studentRoot proof = .error (.proofTooLong 2)) ∧
    (∀ a : Node, txs = [a] → required = a → proof = [a] → sha256 (a ++ a) ≠ a →
      verifyModeA sha256 txs required studentRoot proof =
        .error (.rootMismatchFull (sha256 (a ++ a)) a)) := by
  have hidx := indexOfNode_lt_length hmem
  refine ⟨?_, ?_, ?_, ?_⟩
  · intro hlen hpre
    rw [verifyModeA, if_pos hmem,
      replayAux_short sha256 proof txs (indexOfNode required txs) 0 0 hidx hlen hpre]
  · intro hne hlen hpre
    have h1 : 1 < txs.length := by
      by_contra hle
      exact hne (trueSibs_base sha256 txs (indexOfNode required txs) hle)
    rw [verifyModeA, if_pos hmem,
      replayAux_long sha256 txs (indexOfNode required txs) proof 0 0 hidx h1 hlen hpre]
    simp
  · intro a p2 rest2 htxs hreq hproof
    subst htxs; subst hreq; subst hproof
    have hidx0 : indexOfNode required [required] = 0 := by simp [indexOfNode]
    rw [verifyModeA, if_pos (by simp), hidx0,
      show [required].getD 0 [] = required from rfl,
      replayAux_single_long sha256 required p2 rest2 0 0]
  · intro a htxs hreq hproof hne
    subst htxs; subst hreq; subst hproof
    have hidx0 : indexOfNode required [required] = 0 := by simp [indexOfNode]
    rw [verifyModeA, if_pos (by simp), hidx0,
      show [required].getD 0 [] = required from rfl,
      replayAux_single_one sha256 required 0 0]
    simp only [merkleRootAux_single]
    rw [if_pos (Ne.symm hne)]

/-- Counterexample to C4 as stated: on the single-leaf tree `[nodeA]`, the
non-empty (vacuously matching) submission `[nodeA]` is rejected with the
full-recompute root mismatch, not with a proof-too-long error. -/
theorem modeA_single_leaf_not_too_long :
    verifyModeA shaC [nodeA] nodeA nodeA [nodeA] =
      .error (.rootMismatchFull zeros32 nodeA) ∧
    isTooLong (verifyModeA shaC [nodeA] nodeA nodeA [nodeA]) = false := by
  have h : verifyModeA shaC [nodeA] nodeA nodeA [nodeA] =
      .error (.rootMismatchFull zeros32 nodeA) := by
    have hidx0 : indexOfNode nodeA [nodeA] = 0 := by simp [indexOfNode]
    rw [verifyModeA, if_pos (by simp), hidx0,
      show [nodeA].getD 0 [] = nodeA from rfl,
      replayAux_single_one shaC nodeA 0 0]
    simp only [merkleRootAux_single]
    rw [if_pos (by decide : nodeA ≠ shaC (nodeA ++ nodeA))]
    rfl
  exact ⟨h, by rw [h]; rfl⟩

/-- Witness for (the amended) C4: a matching-but-overlong submission on a
two-leaf tree fails as too long at position 2. -/
theorem modeA_proof_length_checks_witness :
    verifyModeA shaC [nodeA, nodeB] nodeA nodeA [nodeB, nodeC] =
      .error (.proofTooLong 2) := by
  have hidx : indexOfNode nodeA [nodeA, nodeB] = 0 := by decide
  have hts : trueSibs shaC [nodeA, nodeB] (indexOfNode nodeA [nodeA, nodeB]) = [nodeB] := by
    rw [hidx, trueSibs_pair]
  have h := (modeA_proof_length_checks shaC [nodeA, nodeB] nodeA nodeA [nodeB, nodeC]
    (by simp)).2.1 (by rw [hts]; simp) (by rw [hts]; simp)
    (fun j hj => by
      rw [hts] at hj ⊢
      simp only [List.length_cons, List.length_nil] at hj
      interval_cases j
      · rfl)
  rw [hts] at h
  simpa using h

deriving instance DecidableEq for Except

/-- Once the replay has produced a root, Mode A is exactly the two root
checks. -/
theorem verifyModeA_ok_case (sha256 : Node → Node) (txs : List Node)
    (required studentRoot : Node) (proof : List Node) (r' : Node) (d' : Nat)
    (hmem : required ∈ txs)
    (hrep : replayAux sha256 txs (indexOfNode required txs)
      (txs.getD (indexOfNode required txs) []) proof 0 0 = .ok (r', d')) :
    verifyModeA sha256 txs required studentRoot proof =
      if merkleRootAux sha256 txs ≠ r' then
        .error (.rootMismatchFull r' (merkleRootAux sha256 txs))
      else if studentRoot ≠ r' then .error (.rootMismatchClaimed r' studentRoot)
      else .ok (r', d') := by
  rw [verifyModeA, if_pos hmem, hrep]

/-- C5: an accepted Mode A run forces the replayed root to equal both the
full-rebuild root and the submitted root; and whenever the replay completes
with a root different from the submitted one, the run fails with a
root-mismatch error (full-recompute or claimed-root), never accepting. -/
theorem modeA_root_mismatch_checks (sha256 : Node → Node) (txs : List Node)
    (required studentRoot : Node) (proof : List Node) (r : Node) (d : Nat)
    (hmem : required ∈ txs) :
    (verifyModeA sha256 txs required studentRoot proof = .ok (r, d) →
      merkle_root_be sha256 txs = .ok r ∧ studentRoot = r) ∧
    (replayAux sha256 txs (indexOfNode required txs)
        (txs.getD (indexOfNode required txs) []) proof 0 0 = .ok (r, d) →
      studentRoot ≠ r →
      ∃ e, verifyModeA sha256 txs required studentRoot proof = .error e ∧
        isRootMismatch e = true) := by
  constructor
  · intro hok
    cases hrep : replayAux sha256 txs (indexOfNode required txs)
        (txs.getD (indexOfNode required txs) []) proof 0 0 with
    | error e =>
      rw [verifyModeA, if_pos hmem, hrep] at hok
      simp at hok
    | ok v =>
      obtain ⟨r', d'⟩ := v
      rw [verifyModeA_ok_case sha256 txs required studentRoot proof r' d' hmem hrep]
        at hok
      by_cases h1 : merkleRootAux sha256 txs ≠ r'
      · rw [if_pos h1] at hok
        simp at hok
      · rw [if_neg h1] at hok
        by_cases h2 : studentRoot ≠ r'
        · rw [if_pos h2] at hok
          simp at hok
        · rw [if_neg h2] at hok
          have hr : r' = r ∧ d' = d := by simpa using hok
          push_neg at h1 h2
          refine ⟨?_, by rw [h2, hr.1]⟩
          rw [merkle_root_be, if_neg (List.ne_nil_of_mem hmem), h1, hr.1]
  · intro hrep hne
    rw [verifyModeA_ok_case sha256 txs required studentRoot proof r d hmem hrep]
    by_cases h1 : merkleRootAux sha256 txs ≠ r
    · exact ⟨.rootMismatchFull r (merkleRootAux sha256 txs), by rw [if_pos h1], rfl⟩
    · exact ⟨.rootMismatchClaimed r studentRoot, by rw [if_neg h1, if_pos hne], rfl⟩

/-- Witness for C5: a completed replay with a wrong submitted root is
rejected with a root-mismatch error. -/
theorem modeA_root_mismatch_checks_witness :
    ∃ e, verifyModeA shaC [nodeA, nodeB] nodeA nodeA [nodeB] = .error e ∧
      isRootMismatch e = true :=
  (modeA_root_mismatch_checks shaC [nodeA, nodeB] nodeA nodeA [nodeB] zeros32 1
    (by simp)).2 (by decide) (by decide)

/-- Python `n.to_bytes(w, "big")` (the caller masks first, so `n < 256^w`). -/
def toBytesBE : Nat → Nat → List Nat
  | 0, _ => []
  | w + 1, n => toBytesBE w (n / 256) ++ [n % 256]

/-- Python `int.from_bytes(b, "big")`. -/
def fromBytesBE (l : List Nat) : Nat :=
  l.foldl (fun acc b => acc * 256 + b) 0

theorem toBytesBE_length : ∀ (w n : Nat), (toBytesBE w n).length = w
  | 0, _ => rfl
  | w + 1, n => by simp [toBytesBE, toBytesBE_length w]

theorem fromBytesBE_append_singleton (l : List Nat) (b : Nat) :
    fromBytesBE (l ++ [b]) = fromBytesBE l * 256 + b := by
  simp [fromBytesBE]

theorem fromBytesBE_toBytesBE : ∀ (w n : Nat), n < 256 ^ w →
    fromBytesBE (toBytesBE w n) = n
  | 0, n, h => by
    simp [Nat.pow_zero] at h
    simp [toBytesBE, fromBytesBE, h]
  | w + 1, n, h => by
    have hd : n / 256 < 256 ^ w := by
      rw [Nat.div_lt_iff_lt_mul (by norm_num : 0 < 256)]
      calc n < 256 ^ (w + 1) := h
        _ = 256 ^ w * 256 := by rw [Nat.pow_succ]
    rw [toBytesBE, fromBytesBE_append_singleton, fromBytesBE_toBytesBE w (n / 256) hd]
    omega

theorem toBytesBE_bytes_lt : ∀ (w n : Nat), ∀ b ∈ toBytesBE w n, b < 256
  | 0, _ => by simp [toBytesBE]
  | w + 1, n => by
    intro b hb
    rw [toBytesBE] at hb
    rcases List.mem_append.mp hb with h | h
    · exact toBytesBE_bytes_lt w (n / 256) b h
    · simp at h
      omega

/-- Failure sites of the compact-target decoders. -/
inductive TargetError : Type
  | wrongLength : TargetError
  | zeroMantissa : TargetError
  | exponentRange : TargetError
  | invalidEncoding : TargetError
  | rangeExceeded : TargetError
deriving DecidableEq, Repr

/-- `decode_compact_target_from_le` (grader_exercise03): despite the LE naming
in its comment, `nbits_be = nbits_le` — no reversal occurs.  `E` is byte 0,
`M` the big-endian integer of bytes 1..3; zero mantissa and out-of-bounds
exponent are rejected separately, then the shifted target is range-checked
against `(0, 2^256)`. -/
def decode_compact_target_from_le (nbits : List Nat) : Except TargetError Nat :=
  if nbits.length ≠ 4 then .error .wrongLength
  else if fromBytesBE (nbits.drop 1) = 0 then .error .zeroMantissa
  else if nbits.getD 0 0 < 3 ∨ 34 < nbits.getD 0 0 then .error .exponentRange
  else if fromBytesBE (nbits.drop 1) * 2 ^ (8 * (nbits.getD 0 0 - 3)) = 0 ∨
      2 ^ 256 ≤ fromBytesBE (nbits.drop 1) * 2 ^ (8 * (nbits.getD 0 0 - 3)) then
    .error .rangeExceeded
  else .ok (fromBytesBE (nbits.drop 1) * 2 ^ (8 * (nbits.getD 0 0 - 3)))

/-- `decode_compact_target_be` (solve_exercise03): same computation, with the
mantissa/exponent rejections merged into one error message. -/
def decode_compact_target_be (nbits : List Nat) : Except TargetError Nat :=
  if nbits.length ≠ 4 then .error .wrongLength
  else if fromBytesBE (nbits.drop 1) = 0 ∨ nbits.getD 0 0 < 3 ∨ 34 < nbits.getD 0 0 then
    .error .invalidEncoding
  else if fromBytesBE (nbits.drop 1) * 2 ^ (8 * (nbits.getD 0 0 - 3)) = 0 ∨
      2 ^ 256 ≤ fromBytesBE (nbits.drop 1) * 2 ^ (8 * (nbits.getD 0 0 - 3)) then
    .error .rangeExceeded
  else .ok (fromBytesBE (nbits.drop 1) * 2 ^ (8 * (nbits.getD 0 0 - 3)))

/-- C6: on a 4-byte input with exponent byte E and 3-byte big-endian mantissa
M, the codec returns `M * 256^(E-3)` exactly when `M ≠ 0`, `3 ≤ E ≤ 34` and
the value lies strictly inside `(0, 2^256)`; zero mantissa and out-of-range
exponents are rejected as invalid encodings, an in-range encoding whose value
reaches `2^256` is rejected as a range error, and the solver-side decoder
accepts exactly the same values. -/
theorem decode_compact_target_spec (e m1 m2 m3 : Nat)
    (he : e < 256) (h1 : m1 < 256) (h2 : m2 < 256) (h3 : m3 < 256) :
    (((m1 * 256 + m2) * 256 + m3 ≠ 0) → 3 ≤ e → e ≤ 34 →
      0 < ((m1 * 256 + m2) * 256 + m3) * 256 ^ (e - 3) →
      ((m1 * 256 + m2) * 256 + m3) * 256 ^ (e - 3) < 2 ^ 256 →
      decode_compact_target_from_le [e, m1, m2, m3] =
        .ok (((m1 * 256 + m2) * 256 + m3) * 256 ^ (e - 3))) ∧
    ((m1 * 256 + m2) * 256 + m3 = 0 →
      decode_compact_target_from_le [e, m1, m2, m3] = .error .zeroMantissa) ∧
    (((m1 * 256 + m2) * 256 + m3 ≠ 0) → (e < 3 ∨ 34 < e) →
      decode_compact_target_from_le [e, m1, m2, m3] = .error .exponentRange) ∧
    (((m1 * 256 + m2) * 256 + m3 ≠ 0) → 3 ≤ e → e ≤ 34 →
      2 ^ 256 ≤ ((m1 * 256 + m2) * 256 + m3) * 256 ^ (e - 3) →
      decode_compact_target_from_le [e, m1, m2, m3] = .error .rangeExceeded) ∧
    (∀ t, decode_compact_target_be [e, m1, m2, m3] = .ok t ↔
      decode_compact_target_from_le [e, m1, m2, m3] = .ok t) := by
  have hdrop : ([e, m1, m2, m3].drop 1) = [m1, m2, m3] := rfl
  have hget : [e, m1, m2, m3].getD 0 0 = e := rfl
  have hM : fromBytesBE [m1, m2, m3] = (m1 * 256 + m2) * 256 + m3 := by
    simp [fromBytesBE]
  have hpow : (2 : Nat) ^ (8 * (e - 3)) = 256 ^ (e - 3) := by
    rw [Nat.pow_mul]
  have hlen : ¬ ([e, m1, m2, m3] : List Nat).length ≠ 4 := by simp
  refine ⟨?_, ?_, ?_, ?_, ?_⟩
  · intro hm he1 he2 hpos hlt
    rw [decode_compact_target_from_le, if_neg hlen, hdrop, hget, hM, hpow,
      if_neg hm, if_neg (by omega), if_neg (by omega)]
  · intro hm
    rw [decode_compact_target_from_le, if_neg hlen, hdrop, hM, if_pos hm]
  · intro hm hrange
    rw [decode_compact_target_from_le, if_neg hlen, hdrop, hget, hM,
      if_neg hm, if_pos hrange]
  · intro hm he1 he2 hge
    rw [decode_compact_target_from_le, if_neg hlen, hdrop, hget, hM, hpow,
      if_neg hm, if_neg (by omega), if_pos (by omega)]
  · intro t
    rw [decode_compact_target_be, decode_compact_target_from_le, if_neg hlen,
      if_neg hlen, hdrop, hget, hM, hpow]
    by_cases hm : (m1 * 256 + m2) * 256 + m3 = 0
    · rw [if_pos (Or.inl hm), if_pos hm]
      simp
    · rw [if_neg hm]
      by_cases hexp : e < 3 ∨ 34 < e
      · rw [if_pos (Or.inr hexp), if_pos hexp]
        simp
      · rw [if_neg (by omega), if_neg hexp]

/-- Witness for C6: the regtest-style encoding `207fffff` decodes to
`0x7fffff * 256^29`, and `22ffffff` (E = 34, large M) trips the range check. -/
theorem decode_compact_target_spec_witness :
    decode_compact_target_from_le [32, 127, 255, 255] =
      .ok (((127 * 256 + 255) * 256 + 255) * 256 ^ (32 - 3)) ∧
    decode_compact_target_from_le [34, 255, 255, 255] = .error .rangeExceeded := by
  constructor
  · exact (decode_compact_target_spec 32 127 255 255 (by norm_num) (by norm_num)
      (by norm_num) (by norm_num)).1 (by norm_num) (by norm_num) (by norm_num)
      (by positivity) (by norm_num)
  · exact (decode_compact_target_spec 34 255 255 255 (by norm_num) (by norm_num)
      (by norm_num) (by norm_num)).2.2.2.1 (by norm_num) (by norm_num) (by norm_num)
      (by norm_num)

/-- `int32_be` (solve_exercise03): `(n & 0xFFFFFFFF).to_bytes(4, "big")`;
the Python mask on a possibly-negative int is the nonnegative remainder. -/
def int32_be (n : Int) : List Nat :=
  toBytesBE 4 (n % 2 ^ 32).toNat

/-- `uint32_be` (solve_exercise03). -/
def uint32_be (n : Nat) : List Nat :=
  toBytesBE 4 (n % 2 ^ 32)

/-- `uint64_be` (solve_exercise03). -/
def uint64_be (n : Nat) : List Nat :=
  toBytesBE 8 (n % 2 ^ 64)

/-- The 80-byte header layout of `build_header_hex`:
`version[4] || prevHash[32] || root[32] || time[4] || nonce[8]`. -/
def buildHeaderBytes (version : Int) (prevhash merkleroot : List Nat)
    (timestamp nonce : Nat) : List Nat :=
  int32_be version ++
    (prevhash ++ (merkleroot ++ (uint32_be timestamp ++ uint64_be nonce)))

def hexDigitChar (n : Nat) : Char :=
  if n < 10 then Char.ofNat (48 + n) else Char.ofNat (87 + n)

/-- Python `bytes.hex()`: two lowercase hex digits per byte. -/
def hexEncode : List Nat → List Char
  | [] => []
  | b :: rest => hexDigitChar (b / 16) :: hexDigitChar (b % 16) :: hexEncode rest

/-- `build_header_hex` (solve_exercise03): serialize the five fields and
return the hex string. -/
def build_header_hex (version : Int) (prevhash merkleroot : List Nat)
    (timestamp nonce : Nat) : List Char :=
  hexEncode (buildHeaderBytes version prevhash merkleroot timestamp nonce)

def hexDigitVal (c : Char) : Option Nat :=
  if '0' ≤ c ∧ c ≤ '9' then some (c.toNat - 48)
  else if 'a' ≤ c ∧ c ≤ 'f' then some (c.toNat - 87)
  else none

/-- Python `bytes.fromhex` on an already-lowercased string: pairs of hex
digits, failing on odd length or a non-hex character. -/
def hexDecode : List Char → Option (List Nat)
  | [] => some []
  | [_] => none
  | c1 :: c2 :: rest =>
    match hexDigitVal c1, hexDigitVal c2, hexDecode rest with
    | some v1, some v2, some bs => some ((v1 * 16 + v2) :: bs)
    | _, _, _ => none

/-- Failure sites of `read_header_bytes` (grader_exercise03). -/
inductive HeaderError : Type
  | emptySubmission : HeaderError
  | wrongLength : HeaderError
  | invalidHex : HeaderError
  | internalLength : HeaderError
deriving DecidableEq, Repr

/-- `read_header_bytes` (grader_exercise03): lowercase the stripped line,
reject empty or non-160-character input, hex-decode, and require 80 bytes. -/
def read_header_bytes (line : List Char) : Except HeaderError (List Nat) :=
  if (line.map Char.toLower).length = 0 then .error .emptySubmission
  else if (line.map Char.toLower).length ≠ 160 then .error .wrongLength
  else
    match hexDecode (line.map Char.toLower) with
    | none => .error .invalidHex
    | some hdr => if hdr.length ≠ 80 then .error .internalLength else .ok hdr

theorem hexDigitVal_hexDigitChar : ∀ d, d < 16 → hexDigitVal (hexDigitChar d) = some d := by
  decide

theorem toLower_hexDigitChar : ∀ d, d < 16 → Char.toLower (hexDigitChar d) = hexDigitChar d := by
  decide

theorem hexEncode_length : ∀ l : List Nat, (hexEncode l).length = 2 * l.length
  | [] => rfl
  | _ :: rest => by
    simp [hexEncode, hexEncode_length rest]
    omega

theorem map_toLower_hexEncode : ∀ l : List Nat, (∀ b ∈ l, b < 256) →
    (hexEncode l).map Char.toLower = hexEncode l
  | [] => by intro _; rfl
  | b :: rest => by
    intro h
    have hb : b < 256 := h b (by simp)
    have ih := map_toLower_hexEncode rest (fun x hx => h x (by simp [hx]))
    rw [hexEncode, List.map_cons, List.map_cons, ih,
      toLower_hexDigitChar (b / 16) (by omega), toLower_hexDigitChar (b % 16) (by omega)]

theorem hexDecode_hexEncode : ∀ l : List Nat, (∀ b ∈ l, b < 256) →
    hexDecode (hexEncode l) = some l
  | [] => by intro _; rfl
  | b :: rest => by
    intro h
    have hb : b < 256 := h b (by simp)
    have ih := hexDecode_hexEncode rest (fun x hx => h x (by simp [hx]))
    rw [hexEncode, hexDecode, hexDigitVal_hexDigitChar (b / 16) (by omega),
      hexDigitVal_hexDigitChar (b % 16) (by omega), ih]
    show some ((b / 16 * 16 + b % 16) :: rest) = some (b :: rest)
    have hbb : b / 16 * 16 + b % 16 = b := by omega
    rw [hbb]

theorem fromBytesBE_uint32 (t : Nat) (ht : t < 2 ^ 32) :
    fromBytesBE (uint32_be t) = t := by
  have h4 : (256 : Nat) ^ 4 = 2 ^ 32 := by norm_num
  rw [uint32_be, Nat.mod_eq_of_lt ht, fromBytesBE_toBytesBE 4 t (by rw [h4]; exact ht)]

theorem fromBytesBE_uint64 (t : Nat) (ht : t < 2 ^ 64) :
    fromBytesBE (uint64_be t) = t := by
  have h8 : (256 : Nat) ^ 8 = 2 ^ 64 := by norm_num
  rw [uint64_be, Nat.mod_eq_of_lt ht, fromBytesBE_toBytesBE 8 t (by rw [h8]; exact ht)]

/-- The signed 4-byte encoding is injective on the 32-bit signed range: the
version field's bytes determine the version exactly. -/
theorem int32_be_inj (v v' : Int) (h1 : -2 ^ 31 ≤ v) (h2 : v < 2 ^ 31)
    (h3 : -2 ^ 31 ≤ v') (h4 : v' < 2 ^ 31) (he : int32_be v = int32_be v') : v = v' := by
  have e32 : (2 : Int) ^ 32 = 4294967296 := by norm_num
  have h256 : (256 : Nat) ^ 4 = 4294967296 := by norm_num
  have hm1 : ((v % 4294967296).toNat) < 256 ^ 4 := by rw [h256]; omega
  have hm2 : ((v' % 4294967296).toNat) < 256 ^ 4 := by rw [h256]; omega
  have hfrom := congrArg fromBytesBE he
  rw [int32_be, int32_be, e32, fromBytesBE_toBytesBE 4 _ hm1,
    fromBytesBE_toBytesBE 4 _ hm2] at hfrom
  omega

/-- C7: the header encoder emits exactly 80 bytes in the layout
`version[4] || prevHash[32] || root[32] || time[4] || nonce[8]`; the grader's
slicing recovers every field exactly (with the integer fields recovered by
big-endian reinterpretation and the version bytes injective on the signed
32-bit range); the emitted 160-character hex line is accepted and decoded back
to the same 80 bytes; and any line whose length is not 160 characters is
rejected. -/
theorem header_codec_roundtrip (version : Int) (prevhash merkleroot : List Nat)
    (timestamp nonce : Nat)
    (hp : prevhash.length = 32) (hm : merkleroot.length = 32)
    (hpb : ∀ b ∈ prevhash, b < 256) (hmb : ∀ b ∈ merkleroot, b < 256)
    (ht : timestamp < 2 ^ 32) (hn : nonce < 2 ^ 64) :
    (buildHeaderBytes version prevhash merkleroot timestamp nonce).length = 80 ∧
    (buildHeaderBytes version prevhash merkleroot timestamp nonce).take 4 =
      int32_be version ∧
    ((buildHeaderBytes version prevhash merkleroot timestamp nonce).drop 4).take 32 =
      prevhash ∧
    ((buildHeaderBytes version prevhash merkleroot timestamp nonce).drop 36).take 32 =
      merkleroot ∧
    ((buildHeaderBytes version prevhash merkleroot timestamp nonce).drop 68).take 4 =
      uint32_be timestamp ∧
    ((buildHeaderBytes version prevhash merkleroot timestamp nonce).drop 72).take 8 =
      uint64_be nonce ∧
    fromBytesBE (uint32_be timestamp) = timestamp ∧
    fromBytesBE (uint64_be nonce) = nonce ∧
    (∀ v' : Int, -2 ^ 31 ≤ v' → v' < 2 ^ 31 → -2 ^ 31 ≤ version → version < 2 ^ 31 →
      int32_be v' = int32_be version → v' = version) ∧
    read_header_bytes (build_header_hex version prevhash merkleroot timestamp nonce) =
      .ok (buildHeaderBytes version prevhash merkleroot timestamp nonce) ∧
    (∀ line : List Char, line.length ≠ 160 → ∃ e, read_header_bytes line = .error e) := by
  have lA : (int32_be version).length = 4 := by rw [int32_be, toBytesBE_length]
  have lT : (uint32_be timestamp).length = 4 := by rw [uint32_be, toBytesBE_length]
  have lN : (uint64_be nonce).length = 8 := by rw [uint64_be, toBytesBE_length]
  have hd4 : (buildHeaderBytes version prevhash merkleroot timestamp nonce).drop 4 =
      prevhash ++ (merkleroot ++ (uint32_be timestamp ++ uint64_be nonce)) := by
    rw [buildHeaderBytes, List.drop_left' lA]
  have hd36 : (buildHeaderBytes version prevhash merkleroot timestamp nonce).drop 36 =
      merkleroot ++ (uint32_be timestamp ++ uint64_be nonce) := by
    rw [show (36 : Nat) = 4 + 32 by norm_num, ← List.drop_drop, hd4, List.drop_left' hp]
  have hd68 : (buildHeaderBytes version prevhash merkleroot timestamp nonce).drop 68 =
      uint32_be timestamp ++ uint64_be nonce := by
    rw [show (68 : Nat) = 36 + 32 by norm_num, ← List.drop_drop, hd36, List.drop_left' hm]
  have hd72 : (buildHeaderBytes version prevhash merkleroot timestamp nonce).drop 72 =
      uint64_be nonce := by
    rw [show (72 : Nat) = 68 + 4 by norm_num, ← List.drop_drop, hd68, List.drop_left' lT]
  have hlen80 : (buildHeaderBytes version prevhash merkleroot timestamp nonce).length = 80 := by
    rw [buildHeaderBytes]
    simp only [List.length_append, lA, hp, hm, lT, lN]
  have hbytes : ∀ b ∈ buildHeaderBytes version prevhash merkleroot timestamp nonce,
      b < 256 := by
    intro b hb
    rw [buildHeaderBytes] at hb
    simp only [List.mem_append] at hb
    rcases hb with h | h | h | h | h
    · exact toBytesBE_bytes_lt 4 _ b h
    · exact hpb b h
    · exact hmb b h
    · exact toBytesBE_bytes_lt 4 _ b h
    · exact toBytesBE_bytes_lt 8 _ b h
  refine ⟨hlen80, ?_, ?_, ?_, ?_, ?_, fromBytesBE_uint32 timestamp ht,
    fromBytesBE_uint64 nonce hn, ?_, ?_, ?_⟩
  · rw [buildHeaderBytes, List.take_left' lA]
  · rw [hd4, List.take_left' hp]
  · rw [hd36, List.take_left' hm]
  · rw [hd68, List.take_left' lT]
  · rw [hd72, ← lN, List.take_length]
  · intro v' hv1 hv2 hv3 hv4 he
    exact int32_be_inj v' version hv1 hv2 hv3 hv4 he
  · have hmap := map_toLower_hexEncode
      (buildHeaderBytes version prevhash merkleroot timestamp nonce) hbytes
    rw [read_header_bytes, build_header_hex, hmap, hexEncode_length, hlen80,
      if_neg (by norm_num), if_neg (by norm_num),
      hexDecode_hexEncode (buildHeaderBytes version prevhash merkleroot timestamp nonce)
        hbytes]
    show (if (buildHeaderBytes version prevhash merkleroot timestamp nonce).length ≠ 80
        then Except.error HeaderError.internalLength
        else Except.ok (buildHeaderBytes version prevhash merkleroot timestamp nonce)) =
      Except.ok (buildHeaderBytes version prevhash merkleroot timestamp nonce)
    rw [if_neg (by rw [hlen80]; norm_num)]
  · intro line hne
    by_cases h0 : (line.map Char.toLower).length = 0
    · exact ⟨.emptySubmission, by rw [read_header_bytes, if_pos h0]⟩
    · refine ⟨.wrongLength, ?_⟩
      rw [read_header_bytes, if_neg h0, if_pos (by simpa using hne)]

/-- Witness for C7 at a concrete header. -/
theorem header_codec_roundtrip_witness :
    (buildHeaderBytes 4 zeros32 nodeB 5 6).length = 80 ∧
    read_header_bytes (build_header_hex 4 zeros32 nodeB 5 6) =
      .ok (buildHeaderBytes 4 zeros32 nodeB 5 6) := by
  have h := header_codec_roundtrip 4 zeros32 nodeB 5 6 (by decide) (by decide)
    (by decide) (by decide) (by norm_num) (by norm_num)
  exact ⟨h.1, h.2.2.2.2.2.2.2.2.2.1⟩

/-- State of the `mine` loop: current nonce, attempt counter, and timestamp. -/
structure MinerState : Type where
  nonce : Nat
  tries : Nat
  curTime : Nat
deriving DecidableEq, Repr

/-- Result of one iteration of the `while True` loop in `mine`
(solve_exercise03). -/
inductive MineStep : Type where
  | found (headerHex : List Char) (digest : List Nat) (nonce curTime : Nat) : MineStep
  | exhausted : MineStep
  | next (s : MinerState) : MineStep
deriving DecidableEq, Repr

/-- One iteration of `mine`: encode the header for the current
(timestamp, nonce), hash it once, accept if the big-endian value is ≤ target;
otherwise increment the nonce mod 2^32 and the attempt counter, and at the
budget either bump the timestamp (counter reset, nonce kept rolling) or abort. -/
def mineStep (sha256 : List Nat → List Nat) (version : Int) (prevhash merkleroot : List Nat)
    (target maxTries : Nat) (allowTimeIncrement : Bool) (s : MinerState) : MineStep :=
  if fromBytesBE (sha256 (buildHeaderBytes version prevhash merkleroot s.curTime s.nonce))
      ≤ target then
    .found (build_header_hex version prevhash merkleroot s.curTime s.nonce)
      (sha256 (buildHeaderBytes version prevhash merkleroot s.curTime s.nonce))
      s.nonce s.curTime
  else if maxTries ≤ s.tries + 1 then
    if allowTimeIncrement then .next ⟨(s.nonce + 1) % 2 ^ 32, 0, s.curTime + 1⟩
    else .exhausted
  else .next ⟨(s.nonce + 1) % 2 ^ 32, s.tries + 1, s.curTime⟩

/-- Outcome of running the loop with a fuel bound (the Python loop is
unbounded; `outOfFuel` marks a run still searching after `fuel` attempts). -/
inductive MineOutcome : Type where
  | found (headerHex : List Char) (digest : List Nat) (nonce curTime : Nat) : MineOutcome
  | exhausted : MineOutcome
  | outOfFuel (s : MinerState) : MineOutcome
deriving DecidableEq, Repr

def MineOutcome.isOutOfFuel : MineOutcome → Bool
  | .outOfFuel _ => true
  | _ => false

/-- The `mine` loop itself: iterate `mineStep`, one fuel unit per attempt. -/
def mineRun (sha256 : List Nat → List Nat) (version : Int) (prevhash merkleroot : List Nat)
    (target maxTries : Nat) (allowTimeIncrement : Bool) :
    Nat → MinerState → MineOutcome
  | 0, s => .outOfFuel s
  | fuel + 1, s =>
    match mineStep sha256 version prevhash merkleroot target maxTries
        allowTimeIncrement s with
    | .found h dg n t => .found h dg n t
    | .exhausted => .exhausted
    | .next s' => mineRun sha256 version prevhash merkleroot target maxTries
        allowTimeIncrement fuel s'

theorem fromBytesBE_lt_gen : ∀ (l : List Nat) (acc : Nat), (∀ b ∈ l, b < 256) →
    List.foldl (fun a b => a * 256 + b) acc l < (acc + 1) * 256 ^ l.length
  | [], acc, _ => by simp
  | b :: rest, acc, h => by
    have hb : b < 256 := h b (by simp)
    have ih := fromBytesBE_lt_gen rest (acc * 256 + b) (fun x hx => h x (by simp [hx]))
    calc List.foldl (fun a b => a * 256 + b) (acc * 256 + b) rest
        < (acc * 256 + b + 1) * 256 ^ rest.length := ih
      _ ≤ (acc + 1) * 256 ^ (b :: rest).length := by
          simp only [List.length_cons, Nat.pow_succ]
          calc (acc * 256 + b + 1) * 256 ^ rest.length
              ≤ ((acc + 1) * 256) * 256 ^ rest.length := by
                apply Nat.mul_le_mul_right
                omega
            _ = (acc + 1) * (256 ^ rest.length * 256) := by ring

theorem fromBytesBE_lt (l : List Nat) (h : ∀ b ∈ l, b < 256) :
    fromBytesBE l < 256 ^ l.length := by
  have := fromBytesBE_lt_gen l 0 h
  simpa [fromBytesBE] using this

/-- C8: the loop halts exactly at the first (timestamp, nonce) pair in its
search order whose single-hash value is ≤ the target, emitting that encoded
header, that digest, and that pair; a failing attempt never halts and only
advances the nonce to `(nonce + 1) mod 2^32` (the increment never sets the
upper 32 bits of the 8-byte field); and against the all-ones 256-bit target a
32-byte digest always satisfies on the first attempt, so the run reports the
starting nonce and timestamp. -/
theorem miner_halts_at_first_success (sha256 : List Nat → List Nat) (version : Int)
    (prevhash merkleroot : List Nat) (target maxTries : Nat) (allow : Bool)
    (s : MinerState) (n0 t0 fuel : Nat) :
    (fromBytesBE (sha256 (buildHeaderBytes version prevhash merkleroot s.curTime s.nonce))
        ≤ target →
      mineStep sha256 version prevhash merkleroot target maxTries allow s =
        .found (build_header_hex version prevhash merkleroot s.curTime s.nonce)
          (sha256 (buildHeaderBytes version prevhash merkleroot s.curTime s.nonce))
          s.nonce s.curTime) ∧
    (target <
        fromBytesBE (sha256 (buildHeaderBytes version prevhash merkleroot s.curTime s.nonce)) →
      (∀ h dg n t, mineStep sha256 version prevhash merkleroot target maxTries allow s ≠
        .found h dg n t) ∧
      (∀ s', mineStep sha256 version prevhash merkleroot target maxTries allow s =
          .next s' →
        s'.nonce = (s.nonce + 1) % 2 ^ 32 ∧ s'.nonce < 2 ^ 32)) ∧
    ((sha256 (buildHeaderBytes version prevhash merkleroot t0 n0)).length = 32 →
      (∀ b ∈ sha256 (buildHeaderBytes version prevhash merkleroot t0 n0), b < 256) →
      mineRun sha256 version prevhash merkleroot (2 ^ 256 - 1) maxTries allow (fuel + 1)
          ⟨n0, 0, t0⟩ =
        .found (build_header_hex version prevhash merkleroot t0 n0)
          (sha256 (buildHeaderBytes version prevhash merkleroot t0 n0)) n0 t0) := by
  refine ⟨?_, ?_, ?_⟩
  · intro hle
    rw [mineStep, if_pos hle]
  · intro hgt
    have hne := Nat.not_le.mpr hgt
    constructor
    · intro h dg n t
      rw [mineStep, if_neg hne]
      split
      · split <;> simp
      · simp
    · intro s' hs
      rw [mineStep, if_neg hne] at hs
      have hmod : (s.nonce + 1) % 2 ^ 32 < 2 ^ 32 :=
        Nat.mod_lt _ (by norm_num)
      split at hs
      · split at hs
        · cases hs
          exact ⟨rfl, hmod⟩
        · cases hs
      · cases hs
        exact ⟨rfl, hmod⟩
  · intro hlen hbytes
    have hlt : fromBytesBE (sha256 (buildHeaderBytes version prevhash merkleroot t0 n0))
        < 2 ^ 256 := by
      have := fromBytesBE_lt _ hbytes
      rw [hlen] at this
      calc fromBytesBE (sha256 (buildHeaderBytes version prevhash merkleroot t0 n0))
          < 256 ^ 32 := this
        _ = 2 ^ 256 := by norm_num
    rw [mineRun, mineStep, if_pos (by omega :
      fromBytesBE (sha256 (buildHeaderBytes version prevhash merkleroot t0 n0))
        ≤ 2 ^ 256 - 1)]

/-- Witness for C8: with a constant digest and the all-ones target, the run
finds the starting pair immediately. -/
theorem miner_halts_at_first_success_witness :
    mineRun shaC 4 zeros32 nodeB (2 ^ 256 - 1) 3 false 1 ⟨0, 0, 0⟩ =
      .found (build_header_hex 4 zeros32 nodeB 0 0)
        (shaC (buildHeaderBytes 4 zeros32 nodeB 0 0)) 0 0 :=
  (miner_halts_at_first_success shaC 4 zeros32 nodeB (2 ^ 256 - 1) 3 false
    ⟨0, 0, 0⟩ 0 0 0).2.2 (by decide) (by decide)

/-- While the hash never meets the target and the budget is not yet consumed,
the run is still searching after `f` attempts. -/
theorem mineRun_unsat_outOfFuel (sha256 : List Nat → List Nat) (version : Int)
    (prevhash merkleroot : List Nat) (target maxTries : Nat)
    (hunsat : ∀ t n, target <
      fromBytesBE (sha256 (buildHeaderBytes version prevhash merkleroot t n))) :
    ∀ (f : Nat) (s : MinerState), f + s.tries < maxTries →
      (mineRun sha256 version prevhash merkleroot target maxTries false f
        s).isOutOfFuel = true
  | 0, s, _ => rfl
  | f + 1, s, hf => by
    rw [mineRun, mineStep,
      if_neg (Nat.not_le.mpr (hunsat s.curTime s.nonce)),
      if_neg (by omega : ¬ maxTries ≤ s.tries + 1)]
    exact mineRun_unsat_outOfFuel sha256 version prevhash merkleroot target maxTries
      hunsat f ⟨(s.nonce + 1) % 2 ^ 32, s.tries + 1, s.curTime⟩ (by simp; omega)

/-- While the hash never meets the target and time advancement is forbidden,
the run aborts exactly when the attempt counter reaches the budget. -/
theorem mineRun_unsat_exhausted (sha256 : List Nat → List Nat) (version : Int)
    (prevhash merkleroot : List Nat) (target maxTries : Nat)
    (hunsat : ∀ t n, target <
      fromBytesBE (sha256 (buildHeaderBytes version prevhash merkleroot t n))) :
    ∀ (f : Nat) (s : MinerState), 1 ≤ f → s.tries + f = maxTries →
      mineRun sha256 version prevhash merkleroot target maxTries false f s = .exhausted
  | 0, _, hf, _ => by omega
  | 1, s, _, hb => by
    rw [mineRun, mineStep,
      if_neg (Nat.not_le.mpr (hunsat s.curTime s.nonce)),
      if_pos (by omega : maxTries ≤ s.tries + 1)]
    rfl
  | f + 2, s, _, hb => by
    rw [mineRun, mineStep,
      if_neg (Nat.not_le.mpr (hunsat s.curTime s.nonce)),
      if_neg (by omega : ¬ maxTries ≤ s.tries + 1)]
    exact mineRun_unsat_exhausted sha256 version prevhash merkleroot target maxTries
      hunsat (f + 1) ⟨(s.nonce + 1) % 2 ^ 32, s.tries + 1, s.curTime⟩ (by omega)
      (by simp; omega)

/-- C9: with target 0 unattainable for the digest in use, time advancement
disallowed and a positive budget, the run aborts (SearchExhaustedError) after
exactly `maxTries` attempts — it is still searching after any smaller number
of attempts; and when time advancement is allowed, the attempt that consumes
the budget instead bumps the timestamp by one, resets the attempt counter to
zero, and keeps the incremented (not reset) nonce. -/
theorem miner_exhaustion_behavior (sha256 : List Nat → List Nat) (version : Int)
    (prevhash merkleroot : List Nat) (maxTries n0 t0 : Nat) :
    ((∀ t n, 0 <
        fromBytesBE (sha256 (buildHeaderBytes version prevhash merkleroot t n))) →
      1 ≤ maxTries →
      mineRun sha256 version prevhash merkleroot 0 maxTries false maxTries
          ⟨n0, 0, t0⟩ = .exhausted ∧
      ∀ f, f < maxTries →
        (mineRun sha256 version prevhash merkleroot 0 maxTries false f
          ⟨n0, 0, t0⟩).isOutOfFuel = true) ∧
    (∀ (target : Nat) (allow : Bool) (s : MinerState),
      target <
        fromBytesBE (sha256 (buildHeaderBytes version prevhash merkleroot s.curTime s.nonce)) →
      maxTries ≤ s.tries + 1 → allow = true →
      mineStep sha256 version prevhash merkleroot target maxTries allow s =
        .next ⟨(s.nonce + 1) % 2 ^ 32, 0, s.curTime + 1⟩) := by
  constructor
  · intro hunsat hpos
    constructor
    · exact mineRun_unsat_exhausted sha256 version prevhash merkleroot 0 maxTries
        hunsat maxTries ⟨n0, 0, t0⟩ hpos (by simp)
    · intro f hf
      exact mineRun_unsat_outOfFuel sha256 version prevhash merkleroot 0 maxTries
        hunsat f ⟨n0, 0, t0⟩ (by simp; omega)
  · intro target allow s hgt hb hallow
    rw [mineStep, if_neg (Nat.not_le.mpr hgt), if_pos hb, hallow]
    rw [if_pos rfl]

/-- Concrete digest function whose value is never zero. -/
def shaOne : List Nat → List Nat := fun _ => [1]

/-- Witness for C9: budget 3, target 0, no time advancement — exhausted after
exactly 3 attempts, still searching after 2. -/
theorem miner_exhaustion_behavior_witness :
    mineRun shaOne 4 zeros32 nodeB 0 3 false 3 ⟨0, 0, 0⟩ = .exhausted ∧
    (mineRun shaOne 4 zeros32 nodeB 0 3 false 2 ⟨0, 0, 0⟩).isOutOfFuel = true := by
  have h := (miner_exhaustion_behavior shaOne 4 zeros32 nodeB 3 0 0).1
    (fun t n => by simp [shaOne, fromBytesBE]) (by norm_num)
  exact ⟨h.1, h.2 2 (by norm_num)⟩

/-- Report of a Mode B run: the root-digest check, the length check, the list
of all mismatching proof positions, and the overall outcome. -/
structure ModeBReport : Type where
  rootOk : Bool
  lengthOk : Bool
  badPositions : List Nat
  accepted : Bool
deriving DecidableEq, Repr

/-- Modelled from the spec: Mode B — committed-digest replay (spec §4.3); the
Mode B verifier implementation is not among the sources (only Mode A's grader
is), so this follows the spec's words: the digest of the claimed root must
equal the first reference digest, the claimed proof must have exactly the
length of the remaining reference digests, every position is checked, and
every failing position is reported; the run fails if any position failed,
after the full set of mismatches is collected. -/
def verifyModeB (sha256 : Node → Node) (refRootDigest : Node) (refEntryDigests : List Node)
    (claimedRoot : Node) (claimedProof : List Node) : ModeBReport :=
  { rootOk := decide (sha256 claimedRoot = refRootDigest)
    lengthOk := decide (claimedProof.length = refEntryDigests.length)
    badPositions := (List.range (min claimedProof.length refEntryDigests.length)).filter
      (fun i => decide (sha256 (claimedProof.getD i []) ≠ refEntryDigests.getD i []))
    accepted := decide (sha256 claimedRoot = refRootDigest) &&
      decide (claimedProof.length = refEntryDigests.length) &&
      ((List.range (min claimedProof.length refEntryDigests.length)).filter
        (fun i => decide (sha256 (claimedProof.getD i []) ≠ refEntryDigests.getD i []))).isEmpty }

/-- C10: Mode B checks every position: the reported mismatch list contains
exactly the failing positions (all of them, not only the first), and the run
is accepted precisely when the root digest matches, the lengths agree, and no
position fails. -/
theorem modeB_reports_all_mismatches (sha256 : Node → Node) (refRootDigest : Node)
    (refEntryDigests : List Node) (claimedRoot : Node) (claimedProof : List Node) :
    ((verifyModeB sha256 refRootDigest refEntryDigests claimedRoot claimedProof).accepted
        = true ↔
      (sha256 claimedRoot = refRootDigest ∧
        claimedProof.length = refEntryDigests.length ∧
        ∀ i, i < claimedProof.length →
          sha256 (claimedProof.getD i []) = refEntryDigests.getD i [])) ∧
    (∀ i, i ∈ (verifyModeB sha256 refRootDigest refEntryDigests claimedRoot
        claimedProof).badPositions ↔
      (i < claimedProof.length ∧ i < refEntryDigests.length ∧
        sha256 (claimedProof.getD i []) ≠ refEntryDigests.getD i [])) := by
  constructor
  · rw [verifyModeB]
    simp only [Bool.and_eq_true, decide_eq_true_eq, List.isEmpty_iff,
      List.filter_eq_nil_iff, List.mem_range, decide_not, Bool.not_eq_true,
      decide_eq_false_iff_not, not_not]
    constructor
    · rintro ⟨⟨hroot, hlen⟩, hall⟩
      refine ⟨hroot, hlen, fun i hi => ?_⟩
      simpa using hall i (by omega)
    · rintro ⟨hroot, hlen, hall⟩
      refine ⟨⟨hroot, hlen⟩, fun i hi => ?_⟩
      simpa using hall i (by omega)
  · intro i
    rw [verifyModeB]
    simp only [List.mem_filter, List.mem_range, decide_not, Bool.not_eq_false',
      decide_eq_true_eq]
    constructor
    · rintro ⟨hi, hne⟩
      refine ⟨by omega, by omega, ?_⟩
      intro hc
      rw [hc] at hne
      simp at hne
    · rintro ⟨h1, h2, hne⟩
      exact ⟨by omega, by simpa using hne⟩
